import Mathlib

/-!
# Verification of the wodonga service supervisor

Shallow embedding of `src/wodonga/service.py` and `src/wodonga/tcp.py`
(an on-demand TCP reverse proxy built on trio's cooperative scheduler).

Modelling conventions, used throughout:

* Time is measured in deciseconds (1 tick = 0.1 s) on a monotone clock, so the
  constants of the source become: `trio.sleep(0.1)` = 1 tick,
  `move_on_after(5)` = 50, flap window `10.0` = 100, connect ceiling `20` = 200,
  idle timeout `600` = 6000.
* trio runs all tasks of one run on a single thread; a task runs atomically
  from one checkpoint (an `await` that can suspend) to the next.  Each model
  therefore advances one whole atomic block per step, and the nondeterministic
  scheduler / environment is an explicit list of actions.
* `trio.Event` latches are modelled by a `Bool` (set/unset) plus, where the
  code replaces a latch by a fresh one, a generation counter.
* External collaborators (the OS, `cleanup_dead_process`, the subprocess
  itself) are environment actions; the model records the calls made to them
  in observation logs so that theorems can speak about them.
-/

namespace Wodonga

/-! ## Connection pump: backend connect loop (`tcp.py`, `proxy`, lines 90-102)

```python
raise_after = trio.current_time() + 20
while True:
    try:
        outgoing = await trio.open_tcp_stream(target_host, target_port)
    except OSError as e:
        if not isinstance(e.__cause__, ConnectionRefusedError):
            raise
        if trio.current_time() > raise_after:
            raise
    else:
        break
    await trio.sleep(0.1)
```

Each `open_tcp_stream` attempt is driven by an oracle entry `(r, t)`: the
outcome `r` of the attempt together with the value `t` that
`trio.current_time()` would return right after the attempt (the value the
line-98 comparison reads).  The run returns the event log (attempts and
sleeps, in order) and how the loop ended. -/

inductive ConnRes where
  | ok
  | refused
  | otherErr
deriving DecidableEq

inductive ProxyEv where
  | attempt (r : ConnRes) (t : Nat)
  | sleep100ms
deriving DecidableEq

inductive ProxyOutcome where
  | connected
  | raisedRefused
  | raisedOther
  | looping
deriving DecidableEq

def proxyRun (raiseAfter : Nat) : List (ConnRes × Nat) → List ProxyEv × ProxyOutcome
  | [] => ([], .looping)
  | (.ok, t) :: _ => ([.attempt .ok t], .connected)
  | (.otherErr, t) :: _ => ([.attempt .otherErr t], .raisedOther)
  | (.refused, t) :: rest =>
    if raiseAfter < t then ([.attempt .refused t], .raisedRefused)
    else
      ((.attempt .refused t) :: .sleep100ms :: (proxyRun raiseAfter rest).1,
       (proxyRun raiseAfter rest).2)

/-- `proxy` computes `raise_after = trio.current_time() + 20` on entry
(line 91) and then runs the connect loop. -/
def proxyConnect (entryTime : Nat) (trace : List (ConnRes × Nat)) :
    List ProxyEv × ProxyOutcome :=
  proxyRun (entryTime + 200) trace

/-- If every attempt in the trace is refused inside the window, the loop is
still running after consuming the whole trace. -/
theorem proxyRun_all_refused (ra : Nat) :
    ∀ trace : List (ConnRes × Nat),
      (∀ p ∈ trace, p.1 = ConnRes.refused ∧ p.2 ≤ ra) →
      (proxyRun ra trace).2 = ProxyOutcome.looping := by
  intro trace
  induction trace with
  | nil => intro _; rfl
  | cons p rest ih =>
    intro h
    obtain ⟨hr, ht⟩ := h p (List.mem_cons_self p rest)
    obtain ⟨r, t⟩ := p
    simp only at hr ht
    subst hr
    have hnot : ¬ ra < t := Nat.not_lt.mpr ht
    simp only [proxyRun, hnot, if_false]
    exact ih fun q hq => h q (List.mem_cons_of_mem _ hq)

/-- C6: in the Connection Pump's backend connect loop, a connect attempt that
fails with cause connection-refused while no more than 20 s have elapsed since
entry (`current_time ≤ entry + 20 s`) is followed by a 100 ms sleep and a
retry on the remaining attempts; a refused attempt observed after the
20-second window raises instead of retrying; a connect error whose cause is
not connection-refused raises immediately on the attempt that produces it,
regardless of elapsed time; and as long as attempts keep being refused inside
the window the loop keeps running. -/
theorem C6_connect_retry_policy (entryTime : Nat) :
    (∀ t rest, t ≤ entryTime + 200 →
      proxyConnect entryTime ((ConnRes.refused, t) :: rest) =
        (ProxyEv.attempt .refused t :: ProxyEv.sleep100ms ::
           (proxyConnect entryTime rest).1,
         (proxyConnect entryTime rest).2))
  ∧ (∀ t rest, entryTime + 200 < t →
      proxyConnect entryTime ((ConnRes.refused, t) :: rest) =
        ([ProxyEv.attempt .refused t], ProxyOutcome.raisedRefused))
  ∧ (∀ t rest, proxyConnect entryTime ((ConnRes.otherErr, t) :: rest) =
        ([ProxyEv.attempt .otherErr t], ProxyOutcome.raisedOther))
  ∧ (∀ trace, (∀ p ∈ trace, p.1 = ConnRes.refused ∧ p.2 ≤ entryTime + 200) →
      (proxyConnect entryTime trace).2 = ProxyOutcome.looping) := by
  refine ⟨?_, ?_, ?_, ?_⟩
  · intro t rest ht
    have hnot : ¬ entryTime + 200 < t := Nat.not_lt.mpr ht
    simp [proxyConnect, proxyRun, hnot]
  · intro t rest ht
    simp [proxyConnect, proxyRun, ht]
  · intro t rest
    simp [proxyConnect, proxyRun]
  · intro trace h
    exact proxyRun_all_refused _ trace h

/-- Concrete instantiation of `C6_connect_retry_policy`: entry at time 0, one
refused attempt observed at 15 s, within the 20 s window. -/
theorem C6_connect_retry_policy_witness :
    proxyConnect 0 [(ConnRes.refused, 150)] =
      ([ProxyEv.attempt .refused 150, ProxyEv.sleep100ms],
       ProxyOutcome.looping) := by
  have h := (C6_connect_retry_policy 0).1 150 [] (by decide)
  exact h

/-! ## Python dict primitives

`service.py` stores the port map in a Python dict (`self._port_map`), written
by item assignment `self._port_map[port] = ...` (line 75).  `pmInsert` is
dict item assignment on an association list: it overwrites the value of an
existing key and otherwise appends a new entry. -/

def pmInsert : List (Nat × Nat) → Nat → Nat → List (Nat × Nat)
  | [], k, v => [(k, v)]
  | e :: rest, k, v => if e.1 = k then (k, v) :: rest else e :: pmInsert rest k v

def pmKeys (pm : List (Nat × Nat)) : List Nat := pm.map Prod.fst

def pmLookup : List (Nat × Nat) → Nat → Option Nat
  | [], _ => none
  | e :: rest, k => if e.1 = k then some e.2 else pmLookup rest k

theorem mem_pmKeys_pmInsert (pm : List (Nat × Nat)) (k v p : Nat) :
    p ∈ pmKeys (pmInsert pm k v) ↔ p = k ∨ p ∈ pmKeys pm := by
  induction pm with
  | nil => simp [pmInsert, pmKeys]
  | cons e rest ih =>
    by_cases hk : e.1 = k
    · simp only [pmInsert, hk, if_true, pmKeys, List.map_cons, List.mem_cons]
      tauto
    · simp only [pmInsert, hk, if_false, pmKeys, List.map_cons, List.mem_cons]
      rw [show (pmInsert rest k v).map Prod.fst = pmKeys (pmInsert rest k v) from rfl, ih]
      rw [show rest.map Prod.fst = pmKeys rest from rfl]
      tauto

theorem nodup_pmKeys_pmInsert (pm : List (Nat × Nat)) (k v : Nat)
    (h : (pmKeys pm).Nodup) : (pmKeys (pmInsert pm k v)).Nodup := by
  induction pm with
  | nil => simp [pmInsert, pmKeys]
  | cons e rest ih =>
    simp only [pmKeys, List.map_cons, List.nodup_cons] at h
    by_cases hk : e.1 = k
    · simp only [pmInsert, hk, if_true, pmKeys, List.map_cons, List.nodup_cons]
      exact ⟨by rw [← hk]; exact h.1, h.2⟩
    · simp only [pmInsert, hk, if_false, pmKeys, List.map_cons, List.nodup_cons]
      refine ⟨?_, ih h.2⟩
      intro hmem
      rcases (mem_pmKeys_pmInsert rest k v e.1).mp hmem with heq | hmem2
      · exact hk heq
      · exact h.1 hmem2

theorem mem_pmInsert (pm : List (Nat × Nat)) (k v : Nat) (e : Nat × Nat)
    (h : e ∈ pmInsert pm k v) : e ∈ pm ∨ e = (k, v) := by
  induction pm with
  | nil => simp [pmInsert] at h; tauto
  | cons f rest ih =>
    by_cases hk : f.1 = k
    · simp only [pmInsert, hk, if_true, List.mem_cons] at h
      rcases h with h | h
      · right; exact h
      · left; exact List.mem_cons_of_mem _ h
    · simp only [pmInsert, hk, if_false, List.mem_cons] at h
      rcases h with h | h
      · left; exact h ▸ List.mem_cons_self f rest
      · rcases ih h with h2 | h2
        · left; exact List.mem_cons_of_mem _ h2
        · right; exact h2

theorem pmLookup_pmInsert_self (pm : List (Nat × Nat)) (k v : Nat) :
    pmLookup (pmInsert pm k v) k = some v := by
  induction pm with
  | nil => simp [pmInsert, pmLookup]
  | cons e rest ih =>
    by_cases hk : e.1 = k
    · simp [pmInsert, hk, pmLookup]
    · simp [pmInsert, hk, pmLookup, ih]

theorem pmLookup_pmInsert_of_ne (pm : List (Nat × Nat)) (k v p : Nat) (h : p ≠ k) :
    pmLookup (pmInsert pm k v) p = pmLookup pm p := by
  induction pm with
  | nil =>
    simp only [pmInsert, pmLookup]
    rw [if_neg (fun h2 => h h2.symm)]
  | cons e rest ih =>
    by_cases hk : e.1 = k
    · simp only [pmInsert, hk, if_true, pmLookup]
      rw [if_neg (fun h2 => h h2.symm), if_neg (fun h2 => h h2.symm)]
    · simp only [pmInsert, hk, if_false, pmLookup, ih]

/-! ## Service run loop, `stop()` and the surrounding state
(`service.py`, `Service._run_loop` lines 56-115, `Service.stop` lines 159-170)

The run loop is the single task started in `__init__` (line 45).  Its atomic
blocks are delimited by the checkpoints of the source: `_service_wanted.wait()`
(line 58), `sleep_until` (line 61), the port-allocation nursery (lines 77-79),
`open_process` (line 93), `process.wait()` (line 109) and
`cleanup_dead_process` (line 111).  `stop()` has checkpoints at the two
`process.wait()` calls (lines 164 and 169), the first under
`move_on_after(5)`.

Everything else in the program is the environment:

* `tick` — wall-clock time passes (trio's monotonic clock);
* `setWanted` — some `use()` entrant executes `self._service_wanted.set()`
  (line 142); `clearWanted` — the shutdown timer replaces `_service_wanted`
  with a fresh unset `trio.Event` (line 125);
* `useEnter` / `useExit` — a `use()` scope adjusts `self._users`
  (lines 144 and 148; neither `_run_loop` nor `stop()` touches `_users`);
* `procExit` — the subprocess exits;
* `runLoop`, `callStop`, `stopResume` — the scheduler runs the corresponding
  task up to its next checkpoint.  The oracle arguments of `runLoop` carry the
  OS results: `spawnRes` is the result of `trio.open_process` (`none` = the
  call raised), `freePort` the next value returned by `get_free_port`.

Observation instrumentation (not program state): `launches` records the
values stamped into `_executable_last_started` (line 62), `stopLog` records
one entry per completed `stop()` call, `cleanupCalls` the argument of each
`cleanup_dead_process` call, `signalsSent` / `killsSent` the pids signalled
at lines 163 and 168. -/

abbrev Pid := Nat

inductive RLpc where
  | waitWanted
  | flapSleep
  | allocPorts (rem : List Nat)
  | spawn
  | waitExit
  | cleanup (spawnFailed : Bool)
  | dead
deriving DecidableEq

inductive StopPc where
  | idle
  | gracefulWait (deadline : Nat) (aliveAtEntry : Bool)
  | killedWait (aliveAtEntry : Bool)
deriving DecidableEq

structure StopObs where
  sawProcess : Bool
  aliveAtEntry : Bool
  exited : Bool
  handle : Option Pid
  started : Bool
deriving DecidableEq

structure RLConfig where
  now : Nat
  wanted : Bool
  started : Bool
  users : Int
  portMap : List (Nat × Nat)
  process : Option Pid
  procAlive : Bool
  lastStarted : Nat
  launches : List Nat
  rl : RLpc
  stopPc : StopPc
  stopLog : List StopObs
  cleanupCalls : List (Option Pid)
  signalsSent : List Pid
  killsSent : List Pid
deriving DecidableEq

/-- One atomic block of `_run_loop`, lines 56-115. -/
def rlStep (ports : List Nat) (spawnRes : Option Pid) (freePort : Nat)
    (c : RLConfig) : RLConfig :=
  match c.rl with
  | .waitWanted =>
      -- line 58: blocked until `_service_wanted` is set
      if c.wanted then { c with rl := .flapSleep } else c
  | .flapSleep =>
      -- line 61: blocked until `_executable_last_started + 10.0`; on resume,
      -- line 62 stamps the clock and line 67 resets the port map, both before
      -- the next checkpoint (the first socket bind of the nursery)
      if c.lastStarted + 100 ≤ c.now then
        { c with lastStarted := c.now, launches := c.launches ++ [c.now],
                 portMap := [], rl := .allocPorts ports }
      else c
  | .allocPorts [] => { c with rl := .spawn }
  | .allocPorts (p :: rest) =>
      -- lines 74-79: one `get_port` task per descriptor port; each writes
      -- `self._port_map[port] = await get_free_port()`
      { c with portMap := pmInsert c.portMap p freePort, rl := .allocPorts rest }
  | .spawn =>
      match spawnRes with
      | some pid =>
          -- lines 93-101: `open_process` returned; the log line and
          -- `_service_started.set()` run in the same atomic block
          { c with process := some pid, procAlive := true, started := true,
                   rl := .waitExit }
      | none =>
          -- `open_process` raised: control transfers to the `finally` block
          { c with rl := .cleanup true }
  | .waitExit =>
      -- line 109: blocked until the child exits
      if c.procAlive then c else { c with rl := .cleanup false }
  | .cleanup spawnFailed =>
      -- line 111: `await cleanup_dead_process(self._process, ...)`; then on
      -- the normal path lines 114-115 clear `_process` and replace
      -- `_service_started`, and the loop re-enters line 58.  On the
      -- spawn-failure path the exception keeps propagating after the
      -- `finally` block: lines 114-115 are skipped and `_run_loop` ends.
      let c1 := { c with cleanupCalls := c.cleanupCalls ++ [c.process] }
      match spawnFailed with
      | true => { c1 with rl := .dead }
      | false => { c1 with process := none, started := false, rl := .waitWanted }
  | .dead => c

/-- A completed `stop()` call returns to its caller; the observation records
what the controller state looked like at that moment. -/
def stopReturn (sawProcess aliveAtEntry : Bool) (c : RLConfig) : RLConfig :=
  { c with stopPc := .idle,
           stopLog := c.stopLog ++
             [⟨sawProcess, aliveAtEntry, !c.procAlive, c.process, c.started⟩] }

/-- Entry block of `stop()`, lines 159-164: the `None` check, and on the
non-`None` branch the `move_on_after(5)` scope is entered and `send_signal`
runs before the task blocks at `process.wait()` (line 164).  On the `None`
branch the function body is over and the call returns without any further
checkpoint. -/
def stopCall (c : RLConfig) : RLConfig :=
  match c.stopPc with
  | .idle =>
      match c.process with
      | none => stopReturn false c.procAlive c
      | some pid =>
          { c with signalsSent := c.signalsSent ++ [pid],
                   stopPc := .gracefulWait (c.now + 50) c.procAlive }
  | _ => c

/-- Resumption blocks of a blocked `stop()` call: the graceful wait either
completes (line 164-166, return inside the scope) or is cancelled by the
5-second deadline, in which case `kill` is sent (line 168) and the task blocks
again at line 169. -/
def stopStep (c : RLConfig) : RLConfig :=
  match c.stopPc with
  | .idle => c
  | .gracefulWait deadline aliveAtEntry =>
      if c.procAlive then
        if deadline ≤ c.now then
          { c with killsSent := c.killsSent ++ [c.process.getD 0],
                   stopPc := .killedWait aliveAtEntry }
        else c
      else stopReturn true aliveAtEntry c
  | .killedWait aliveAtEntry =>
      if c.procAlive then c else stopReturn true aliveAtEntry c

inductive Act where
  | tick (dt : Nat)
  | setWanted
  | clearWanted
  | useEnter
  | useExit
  | procExit
  | runLoop (spawnRes : Option Pid) (freePort : Nat)
  | callStop
  | stopResume
deriving DecidableEq

def applyAct (ports : List Nat) (c : RLConfig) : Act → RLConfig
  | .tick dt => { c with now := c.now + dt }
  | .setWanted => { c with wanted := true }
  | .clearWanted => { c with wanted := false }
  | .useEnter => { c with users := c.users + 1 }
  | .useExit => { c with users := c.users - 1 }
  | .procExit => { c with procAlive := false }
  | .runLoop s p => rlStep ports s p c
  | .callStop => stopCall c
  | .stopResume => stopStep c

/-- State of the controller right after `__init__` (lines 35-45): fresh unset
latches, no process, no users, `_executable_last_started = 0.0`, run loop
blocked at line 58. -/
def rlInit : RLConfig :=
  { now := 0, wanted := false, started := false, users := 0, portMap := [],
    process := none, procAlive := false, lastStarted := 0, launches := [],
    rl := .waitWanted, stopPc := .idle, stopLog := [], cleanupCalls := [],
    signalsSent := [], killsSent := [] }

def runActs (ports : List Nat) (acts : List Act) : RLConfig :=
  acts.foldl (applyAct ports) rlInit

inductive RLReach (ports : List Nat) : RLConfig → Prop where
  | init : RLReach ports rlInit
  | step (c : RLConfig) (a : Act) : RLReach ports c → RLReach ports (applyAct ports c a)

theorem rlReach_runActs (ports : List Nat) (acts : List Act) :
    RLReach ports (runActs ports acts) := by
  suffices h : ∀ c, RLReach ports c → RLReach ports (acts.foldl (applyAct ports) c) from
    h _ .init
  induction acts with
  | nil => intro c hc; exact hc
  | cons a rest ih => intro c hc; exact ih _ (.step c a hc)

/-! ### Field-preservation lemmas

`stop()` never touches the run loop's state, and `_run_loop` never touches the
stop task's state; the lemmas below record which `RLConfig` fields each step
function leaves alone. -/

theorem stopReturn_fields (saw al : Bool) (c : RLConfig) :
    (stopReturn saw al c).rl = c.rl ∧ (stopReturn saw al c).started = c.started ∧
    (stopReturn saw al c).process = c.process ∧
    (stopReturn saw al c).portMap = c.portMap ∧
    (stopReturn saw al c).procAlive = c.procAlive ∧
    (stopReturn saw al c).launches = c.launches ∧
    (stopReturn saw al c).lastStarted = c.lastStarted ∧
    (stopReturn saw al c).cleanupCalls = c.cleanupCalls := by
  simp [stopReturn]

theorem stopCall_fields (c : RLConfig) :
    (stopCall c).rl = c.rl ∧ (stopCall c).started = c.started ∧
    (stopCall c).process = c.process ∧ (stopCall c).portMap = c.portMap ∧
    (stopCall c).procAlive = c.procAlive ∧ (stopCall c).launches = c.launches ∧
    (stopCall c).lastStarted = c.lastStarted ∧
    (stopCall c).cleanupCalls = c.cleanupCalls := by
  cases hpc : c.stopPc with
  | idle =>
    cases hp : c.process with
    | none => simp [stopCall, stopReturn, hpc, hp]
    | some pid => simp [stopCall, hpc, hp]
  | gracefulWait d al => simp [stopCall, hpc]
  | killedWait al => simp [stopCall, hpc]

theorem stopStep_fields (c : RLConfig) :
    (stopStep c).rl = c.rl ∧ (stopStep c).started = c.started ∧
    (stopStep c).process = c.process ∧ (stopStep c).portMap = c.portMap ∧
    (stopStep c).procAlive = c.procAlive ∧ (stopStep c).launches = c.launches ∧
    (stopStep c).lastStarted = c.lastStarted ∧
    (stopStep c).cleanupCalls = c.cleanupCalls := by
  cases hpc : c.stopPc with
  | idle => simp [stopStep, hpc]
  | gracefulWait d al =>
    cases hal : c.procAlive <;> simp [stopStep, hpc, hal, stopReturn]
    split_ifs <;> simp [hal]
  | killedWait al =>
    cases hal : c.procAlive <;> simp [stopStep, hpc, hal, stopReturn]

theorem rlStep_fields (ports : List Nat) (s : Option Pid) (p : Nat) (c : RLConfig) :
    (rlStep ports s p c).now = c.now ∧ (rlStep ports s p c).wanted = c.wanted ∧
    (rlStep ports s p c).users = c.users ∧
    (rlStep ports s p c).stopPc = c.stopPc ∧
    (rlStep ports s p c).stopLog = c.stopLog ∧
    (rlStep ports s p c).signalsSent = c.signalsSent ∧
    (rlStep ports s p c).killsSent = c.killsSent := by
  cases hrl : c.rl with
  | waitWanted => simp only [rlStep, hrl]; split_ifs <;> simp
  | flapSleep => simp only [rlStep, hrl]; split_ifs <;> simp
  | allocPorts rem => cases rem <;> simp [rlStep, hrl]
  | spawn => cases s <;> simp [rlStep, hrl]
  | waitExit => simp only [rlStep, hrl]; split_ifs <;> simp
  | cleanup f => cases f <;> simp [rlStep, hrl]
  | dead => simp [rlStep, hrl]

/-! ### Invariant: `started` gates the port map and the process handle
(claim C4; spec invariant 3) -/

/-- The port map holds exactly the descriptor ports as keys. -/
def PortsReady (ports : List Nat) (c : RLConfig) : Prop :=
  ∀ p, p ∈ pmKeys c.portMap ↔ p ∈ ports

/-- Program-counter-indexed invariant of the run loop. -/
def RLInv (ports : List Nat) (c : RLConfig) : Prop :=
  (pmKeys c.portMap).Nodup ∧
  match c.rl with
  | .waitWanted => c.started = false ∧ c.process = none
  | .flapSleep => c.started = false ∧ c.process = none
  | .allocPorts rem => c.started = false ∧ c.process = none ∧
      ∃ done, ports = done ++ rem ∧ (∀ p, p ∈ pmKeys c.portMap ↔ p ∈ done)
  | .spawn => c.started = false ∧ c.process = none ∧ PortsReady ports c
  | .waitExit => c.started = true ∧ c.process.isSome = true ∧ PortsReady ports c
  | .cleanup spawnFailed =>
      match spawnFailed with
      | true => c.started = false ∧ c.process = none
      | false => c.started = true ∧ c.process.isSome = true ∧ PortsReady ports c
  | .dead => c.started = false ∧ c.process = none

theorem RLInv_of_fields (ports : List Nat) (c c' : RLConfig)
    (h1 : c'.rl = c.rl) (h2 : c'.started = c.started)
    (h3 : c'.process = c.process) (h4 : c'.portMap = c.portMap)
    (ih : RLInv ports c) : RLInv ports c' := by
  unfold RLInv PortsReady at *
  rw [h1, h2, h3, h4]
  exact ih

theorem RLInv_init (ports : List Nat) : RLInv ports rlInit :=
  ⟨List.nodup_nil, rfl, rfl⟩

theorem RLInv_step (ports : List Nat) (c : RLConfig) (a : Act)
    (ih : RLInv ports c) : RLInv ports (applyAct ports c a) := by
  cases a with
  | tick dt => exact RLInv_of_fields ports c _ rfl rfl rfl rfl ih
  | setWanted => exact RLInv_of_fields ports c _ rfl rfl rfl rfl ih
  | clearWanted => exact RLInv_of_fields ports c _ rfl rfl rfl rfl ih
  | useEnter => exact RLInv_of_fields ports c _ rfl rfl rfl rfl ih
  | useExit => exact RLInv_of_fields ports c _ rfl rfl rfl rfl ih
  | procExit => exact RLInv_of_fields ports c _ rfl rfl rfl rfl ih
  | callStop =>
    obtain ⟨h1, h2, h3, h4, -⟩ := stopCall_fields c
    exact RLInv_of_fields ports c _ h1 h2 h3 h4 ih
  | stopResume =>
    obtain ⟨h1, h2, h3, h4, -⟩ := stopStep_fields c
    exact RLInv_of_fields ports c _ h1 h2 h3 h4 ih
  | runLoop s p =>
    obtain ⟨hnd, hinv⟩ := ih
    show RLInv ports (rlStep ports s p c)
    cases hrl : c.rl with
    | waitWanted =>
      rw [hrl] at hinv
      simp only [rlStep, hrl]
      by_cases hw : c.wanted = true
      · rw [if_pos hw]; exact ⟨hnd, hinv⟩
      · rw [if_neg hw]; exact ⟨hnd, hrl ▸ hinv⟩
    | flapSleep =>
      rw [hrl] at hinv
      simp only [rlStep, hrl]
      by_cases hg : c.lastStarted + 100 ≤ c.now
      · rw [if_pos hg]
        refine ⟨List.nodup_nil, hinv.1, hinv.2, [], rfl, ?_⟩
        intro q
        simp [pmKeys]
      · rw [if_neg hg]; exact ⟨hnd, hrl ▸ hinv⟩
    | allocPorts rem =>
      rw [hrl] at hinv
      obtain ⟨hst, hpr, done, hdone, hkeys⟩ := hinv
      cases rem with
      | nil =>
        simp only [rlStep, hrl]
        refine ⟨hnd, hst, hpr, ?_⟩
        intro q
        rw [hkeys q, hdone, List.append_nil]
      | cons q rest =>
        simp only [rlStep, hrl]
        refine ⟨nodup_pmKeys_pmInsert _ _ _ hnd, hst, hpr, done ++ [q], ?_, ?_⟩
        · rw [List.append_assoc, List.singleton_append, hdone]
        · intro x
          rw [mem_pmKeys_pmInsert, hkeys x, List.mem_append, List.mem_singleton]
          tauto
    | spawn =>
      rw [hrl] at hinv
      obtain ⟨hst, hpr, hready⟩ := hinv
      cases s with
      | some pid =>
        simp only [rlStep, hrl]
        exact ⟨hnd, rfl, rfl, hready⟩
      | none =>
        simp only [rlStep, hrl]
        exact ⟨hnd, hst, hpr⟩
    | waitExit =>
      rw [hrl] at hinv
      simp only [rlStep, hrl]
      by_cases hal : c.procAlive = true
      · rw [if_pos hal]; exact ⟨hnd, hrl ▸ hinv⟩
      · rw [if_neg hal]; exact ⟨hnd, hinv⟩
    | cleanup f =>
      rw [hrl] at hinv
      cases f with
      | true =>
        simp only [rlStep, hrl]
        exact ⟨hnd, hinv⟩
      | false =>
        simp only [rlStep, hrl]
        exact ⟨hnd, rfl, rfl⟩
    | dead =>
      rw [hrl] at hinv
      simp only [rlStep, hrl]
      exact ⟨hnd, hrl ▸ hinv⟩

/-! ### Invariant: flap suppression (claim C5; spec invariant 5) -/

/-- Consecutive launch stamps are at least 10 s (100 ticks) apart, and the
most recent stamp is recorded in `_executable_last_started`. -/
def FlapInv (c : RLConfig) : Prop :=
  List.Chain' (fun a b => a + 100 ≤ b) c.launches ∧
  ∀ x ∈ c.launches.getLast?, x ≤ c.lastStarted

theorem FlapInv_of_fields (c c' : RLConfig)
    (h1 : c'.launches = c.launches) (h2 : c'.lastStarted = c.lastStarted)
    (ih : FlapInv c) : FlapInv c' := by
  unfold FlapInv at *
  rw [h1, h2]
  exact ih

theorem FlapInv_step (ports : List Nat) (c : RLConfig) (a : Act)
    (ih : FlapInv c) : FlapInv (applyAct ports c a) := by
  cases a with
  | tick dt => exact FlapInv_of_fields c _ rfl rfl ih
  | setWanted => exact FlapInv_of_fields c _ rfl rfl ih
  | clearWanted => exact FlapInv_of_fields c _ rfl rfl ih
  | useEnter => exact FlapInv_of_fields c _ rfl rfl ih
  | useExit => exact FlapInv_of_fields c _ rfl rfl ih
  | procExit => exact FlapInv_of_fields c _ rfl rfl ih
  | callStop =>
    obtain ⟨-, -, -, -, -, h6, h7, -⟩ := stopCall_fields c
    exact FlapInv_of_fields c _ h6 h7 ih
  | stopResume =>
    obtain ⟨-, -, -, -, -, h6, h7, -⟩ := stopStep_fields c
    exact FlapInv_of_fields c _ h6 h7 ih
  | runLoop s p =>
    show FlapInv (rlStep ports s p c)
    cases hrl : c.rl with
    | waitWanted => simp only [rlStep, hrl]; split_ifs <;> exact ih
    | flapSleep =>
      simp only [rlStep, hrl]
      by_cases hg : c.lastStarted + 100 ≤ c.now
      · rw [if_pos hg]
        obtain ⟨hch, hlast⟩ := ih
        constructor
        · rw [List.chain'_append]
          refine ⟨hch, List.chain'_singleton _, ?_⟩
          intro x hx y hy
          simp only [List.head?_cons, Option.mem_def, Option.some_inj] at hy
          subst hy
          have := hlast x hx
          omega
        · intro x hx
          rw [List.getLast?_concat] at hx
          simp only [Option.mem_def, Option.some_inj] at hx
          subst hx
          exact le_refl _
      · rw [if_neg hg]; exact ih
    | allocPorts rem => cases rem <;> · simp only [rlStep, hrl]; exact ih
    | spawn => cases s <;> · simp only [rlStep, hrl]; exact ih
    | waitExit => simp only [rlStep, hrl]; split_ifs <;> exact ih
    | cleanup f => cases f <;> · simp only [rlStep, hrl]; exact ih
    | dead => simp only [rlStep, hrl]; exact ih

/-! ### Invariant: completed `stop()` calls saw the child exit (claim C3) -/

/-- Every completed `stop()` call that found a process handle returned only
after the child process had exited. -/
def StopLogInv (c : RLConfig) : Prop :=
  ∀ obs ∈ c.stopLog, obs.sawProcess = true → obs.exited = true

theorem StopLogInv_step (ports : List Nat) (c : RLConfig) (a : Act)
    (ih : StopLogInv c) : StopLogInv (applyAct ports c a) := by
  cases a with
  | tick dt => exact ih
  | setWanted => exact ih
  | clearWanted => exact ih
  | useEnter => exact ih
  | useExit => exact ih
  | procExit => exact ih
  | runLoop s p =>
    obtain ⟨-, -, -, -, h5, -⟩ := rlStep_fields ports s p c
    intro obs hobs
    rw [show (applyAct ports c (.runLoop s p)).stopLog = c.stopLog from h5] at hobs
    exact ih obs hobs
  | callStop =>
    intro obs hobs
    have hobs2 : obs ∈ (stopCall c).stopLog := hobs
    cases hpc : c.stopPc with
    | idle =>
      cases hp : c.process with
      | none =>
        simp only [stopCall, hpc, hp, stopReturn, List.mem_append,
          List.mem_singleton] at hobs2
        rcases hobs2 with h | h
        · exact ih obs h
        · subst h
          intro hsaw
          simp at hsaw
      | some pid =>
        simp only [stopCall, hpc, hp] at hobs2
        exact ih obs hobs2
    | gracefulWait d al =>
      simp only [stopCall, hpc] at hobs2
      exact ih obs hobs2
    | killedWait al =>
      simp only [stopCall, hpc] at hobs2
      exact ih obs hobs2
  | stopResume =>
    intro obs hobs
    have hobs2 : obs ∈ (stopStep c).stopLog := hobs
    cases hpc : c.stopPc with
    | idle =>
      simp only [stopStep, hpc] at hobs2
      exact ih obs hobs2
    | gracefulWait d al =>
      cases hal : c.procAlive with
      | true =>
        simp only [stopStep, hpc, hal] at hobs2
        split_ifs at hobs2 <;> exact ih obs hobs2
      | false =>
        simp only [stopStep, hpc, hal, Bool.false_eq_true, if_false, stopReturn,
          List.mem_append, List.mem_singleton] at hobs2
        rcases hobs2 with h | h
        · exact ih obs h
        · subst h
          intro _
          simp [hal]
    | killedWait al =>
      cases hal : c.procAlive with
      | true =>
        simp only [stopStep, hpc, hal] at hobs2
        exact ih obs hobs2
      | false =>
        simp only [stopStep, hpc, hal, Bool.false_eq_true, if_false, stopReturn,
          List.mem_append, List.mem_singleton] at hobs2
        rcases hobs2 with h | h
        · exact ih obs h
        · subst h
          intro _
          simp [hal]

theorem rlReach_inv (ports : List Nat) (c : RLConfig) (h : RLReach ports c) :
    RLInv ports c ∧ FlapInv c ∧ StopLogInv c := by
  induction h with
  | init =>
    refine ⟨RLInv_init ports, ⟨List.chain'_nil, ?_⟩, ?_⟩
    · intro x hx; simp [rlInit] at hx
    · intro obs hobs; simp [rlInit] at hobs
  | step c a hc ih =>
    exact ⟨RLInv_step ports c a ih.1, FlapInv_step ports c a ih.2.1,
           StopLogInv_step ports c a ih.2.2⟩

/-! ### Claims about the run loop -/

/-- C4: whenever `_service_started` is observable as set, the port map has
exactly one entry for every port of the descriptor's port list (its keys are
the descriptor ports, without duplicates, so each port is counted once), and
the subprocess has already been spawned (the process handle is populated).
Since this holds at every reachable state, `started` is never set before the
port map is fully populated and `open_process` has returned. -/
theorem C4_started_gates_port_map (ports : List Nat) (c : RLConfig)
    (h : RLReach ports c) (hs : c.started = true) :
    (∀ p, p ∈ pmKeys c.portMap ↔ p ∈ ports) ∧ (pmKeys c.portMap).Nodup ∧
    (∀ p ∈ ports, (pmKeys c.portMap).count p = 1) ∧ c.process.isSome = true := by
  obtain ⟨⟨hnd, hbr⟩, -, -⟩ := rlReach_inv ports c h
  have main : PortsReady ports c ∧ c.process.isSome = true := by
    cases hrl : c.rl with
    | waitWanted => rw [hrl] at hbr; rw [hbr.1] at hs; cases hs
    | flapSleep => rw [hrl] at hbr; rw [hbr.1] at hs; cases hs
    | allocPorts rem => rw [hrl] at hbr; rw [hbr.1] at hs; cases hs
    | spawn => rw [hrl] at hbr; rw [hbr.1] at hs; cases hs
    | waitExit => rw [hrl] at hbr; exact ⟨hbr.2.2, hbr.2.1⟩
    | cleanup f =>
      rw [hrl] at hbr
      cases f with
      | true => rw [hbr.1] at hs; cases hs
      | false => exact ⟨hbr.2.2, hbr.2.1⟩
    | dead => rw [hrl] at hbr; rw [hbr.1] at hs; cases hs
  refine ⟨main.1, hnd, ?_, main.2⟩
  intro p hp
  exact List.count_eq_one_of_mem hnd ((main.1 p).mpr hp)

/-- Action trace driving the run loop of a one-port service through a
successful launch: demand arrives, the flap window passes, the port is
allocated, the subprocess is spawned. -/
def launchTrace : List Act :=
  [.setWanted, .runLoop none 0, .tick 100, .runLoop none 0, .runLoop none 40000,
   .runLoop none 0, .runLoop (some 42) 0]

theorem C4_started_gates_port_map_witness :
    8080 ∈ pmKeys (runActs [8080] launchTrace).portMap ∧
    (runActs [8080] launchTrace).process.isSome = true := by
  have h := C4_started_gates_port_map [8080] (runActs [8080] launchTrace)
    (rlReach_runActs [8080] launchTrace) (by decide)
  exact ⟨(h.1 8080).mpr (by decide), h.2.2.2⟩

/-- C5: at every reachable state, the launch timestamps stamped into
`_executable_last_started` (the controller's record of its subprocess
launches, on the monotonic clock) are pairwise at least 10 s (100 ticks)
apart, consecutively — no matter how often `wanted` is set or how quickly the
process exits. -/
theorem C5_flap_suppression (ports : List Nat) (c : RLConfig)
    (h : RLReach ports c) :
    List.Chain' (fun a b => a + 100 ≤ b) c.launches := by
  obtain ⟨-, ⟨hch, -⟩, -⟩ := rlReach_inv ports c h
  exact hch

/-- Trace with two launches: the first process exits immediately and demand
persists, so the loop relaunches — but only once the clock has passed
`last_started_at + 10 s`. -/
def relaunchTrace : List Act :=
  launchTrace ++
  [.procExit, .runLoop none 0, .runLoop none 0, .runLoop none 0, .tick 100,
   .runLoop none 0, .runLoop none 41000, .runLoop none 0, .runLoop (some 43) 0]

theorem C5_flap_suppression_witness :
    List.Chain' (fun a b => a + 100 ≤ b) (runActs [8080] relaunchTrace).launches ∧
    (runActs [8080] relaunchTrace).launches = [100, 200] :=
  ⟨C5_flap_suppression [8080] (runActs [8080] relaunchTrace)
    (rlReach_runActs [8080] relaunchTrace), by decide⟩

/-- Trace refuting C3: a launch completes, `stop()` is called while the
process is alive and sends the graceful signal; the process exits; the
scheduler resumes the `stop()` call first, so it returns while `_run_loop` is
still blocked before its `finally` cleanup — with `_process` still `some 42`
and `_service_started` still set. -/
def stopRaceTrace : List Act :=
  launchTrace ++ [.callStop, .procExit, .stopResume]

/-- C3 counterexample: the recorded completed `stop()` call entered with a
process handle present (`sawProcess`) and alive (`aliveAtEntry`), and at the
moment it returned the child had exited (`exited = true`) but the process
handle was still `some 42` and the `started` latch was still set — the claim
that `stop()` returns only with the handle cleared and `started` unset is
false on the code: clearing is done by the run loop (lines 114-115), which
need not have run yet. -/
theorem C3_counterexample :
    (runActs [8080] stopRaceTrace).stopLog =
      [⟨true, true, true, some 42, true⟩] := by decide

/-- C3 (amended): every `stop()` call that finds a process handle waits for
the child to exit before returning — `process.wait()` (line 164 or 169) only
completes once the child has exited, and on the 5 s timeout path the kill is
followed by another wait.  (The handle and the `started` latch, by contrast,
are cleared by the run loop's cleanup, possibly after `stop()` has already
returned; see `C3_counterexample`.) -/
theorem C3_stop_waits_for_exit (ports : List Nat) (c : RLConfig)
    (h : RLReach ports c) :
    ∀ obs ∈ c.stopLog, obs.sawProcess = true → obs.exited = true := by
  obtain ⟨-, -, hstop⟩ := rlReach_inv ports c h
  exact hstop

theorem C3_stop_waits_for_exit_witness :
    StopObs.exited ⟨true, true, true, some 42, true⟩ = true :=
  C3_stop_waits_for_exit [8080] (runActs [8080] stopRaceTrace)
    (rlReach_runActs [8080] stopRaceTrace)
    ⟨true, true, true, some 42, true⟩ (by decide) (by decide)

/-- Trace on which `trio.open_process` raises: identical to a normal launch
up to the spawn step, whose oracle result is `none` (the raise). -/
def spawnFailTrace : List Act :=
  [.setWanted, .runLoop none 0, .tick 100, .runLoop none 0, .runLoop none 40000,
   .runLoop none 0, .runLoop none 0, .runLoop none 0]

/-- C2 (code bug): when `open_process` raises, the `finally` block still
invokes `cleanup_dead_process` — with `self._process = None`, since the
launch never assigned it — but there is no `except` clause, so after the
`finally` the exception keeps propagating out of `_run_loop`: the loop does
not re-enter `while True`, and no further action can ever produce another
launch.  This contradicts the claim (and the run loop's own comment that it
"should stay running for the lifetime of the server" and "repeats"): the
failure terminates the run loop instead of being treated as a normal exit
with a retry after the flap window. -/
theorem C2_spawn_failure_kills_run_loop :
    (runActs [8080] spawnFailTrace).cleanupCalls = [none] ∧
    (runActs [8080] spawnFailTrace).rl = RLpc.dead ∧
    (runActs [8080] spawnFailTrace).launches = [100] ∧
    (∀ a : Act, (applyAct [8080] (runActs [8080] spawnFailTrace) a).rl = RLpc.dead ∧
      (applyAct [8080] (runActs [8080] spawnFailTrace) a).launches = [100]) := by
  refine ⟨by decide, by decide, by decide, ?_⟩
  intro a
  cases a <;> exact ⟨rfl, rfl⟩

/-- C10: calling `stop()` when `self._process is None` takes the line-160
guard's `else` path: the call returns at once having sent no signal, and
every controller field — `wanted`, `started`, `users`, the port map, the
process handle and everything else — is unchanged.  (`stopLog` is this
model's observation instrumentation, not program state: the real function
body is a no-op on this path.) -/
theorem C10_stop_noop_without_process (c : RLConfig) (h : c.process = none) :
    (stopCall c).wanted = c.wanted ∧ (stopCall c).started = c.started ∧
    (stopCall c).users = c.users ∧ (stopCall c).portMap = c.portMap ∧
    (stopCall c).process = none ∧ (stopCall c).procAlive = c.procAlive ∧
    (stopCall c).rl = c.rl ∧ (stopCall c).now = c.now ∧
    (stopCall c).wanted = c.wanted ∧ (stopCall c).lastStarted = c.lastStarted ∧
    (stopCall c).launches = c.launches ∧
    (stopCall c).signalsSent = c.signalsSent ∧
    (stopCall c).killsSent = c.killsSent ∧
    (stopCall c).stopPc = c.stopPc ∧
    (stopCall c).cleanupCalls = c.cleanupCalls := by
  cases hpc : c.stopPc with
  | idle => simp [stopCall, stopReturn, hpc, h]
  | gracefulWait d al => simp [stopCall, hpc, h]
  | killedWait al => simp [stopCall, hpc, h]

theorem C10_stop_noop_without_process_witness :
    (stopCall rlInit).signalsSent = rlInit.signalsSent ∧
    (stopCall rlInit).process = none ∧ (stopCall rlInit).started = rlInit.started := by
  have h := C10_stop_noop_without_process rlInit rfl
  exact ⟨h.2.2.2.2.2.2.2.2.2.2.2.1, h.2.2.2.2.1, h.2.1⟩

/-! ## The `use()` exit path and the shutdown timer
(`service.py`, `Service.use` lines 139-156 and `Service._shutdown_timer`
lines 122-135)

This model focuses on the reference-count-to-zero transition.  Three tasks:

* the *parent*: a `use()` scope in its `finally` block (lines 147-156).  Its
  first atomic block runs `self._users -= 1`, the debug log and the
  `if not self._users:` test, and ends at the `await self._nursery.start(...)`
  checkpoint (line 156), which spawns the timer task and blocks the parent
  until the timer calls `task_status.started()`;
* the *timer*: `_shutdown_timer`.  Its first atomic block (lines 123-128)
  runs the debug log, `task_status.started()` — which makes the parent
  runnable but does NOT preempt the timer — and then
  `self._service_wanted = trio.Event()`, entering `move_on_after(600)` and
  blocking at `self._service_wanted.wait()` (line 129).  So the handshake
  and the replacement of `wanted` by a fresh unset latch are one atomic
  block: no task can run between them;
* a *rival*: another `use()` entrant.  Its first atomic block (lines
  141-143) runs the debug log and `self._service_wanted.set()` — on whatever
  latch is current at that moment — and blocks at
  `await self._service_started.wait()`; when `started` is set it resumes and
  runs `self._users += 1` (line 144) up to the yield.

In trio, `nursery.start` puts the new task on the run queue and suspends the
caller; any other runnable task may be scheduled before the new task's first
block runs.  The scheduler is the explicit `List UseTask`.

The latch `_service_wanted` is modelled by a generation counter
(`wantedGen`, bumped when line 125 replaces the latch) plus its set flag.
`startedSet` stays `true` for the whole scenario (the subprocess is running
throughout). -/

inductive ParentPc where
  | atFinally
  | awaitingStart
  | returned
deriving DecidableEq

inductive TimerPc where
  | notSpawned
  | spawned
  | waiting
deriving DecidableEq

inductive RivalPc where
  | toEnter
  | awaitStarted
  | active
deriving DecidableEq

inductive UseEv where
  | decrUsers
  | rivalSetWanted (gen : Nat)
  | timerArmed
  | rivalIncr
  | parentReturned
deriving DecidableEq

structure UseConfig where
  wantedGen : Nat
  wantedSet : Bool
  startedSet : Bool
  users : Int
  timerStartedCalled : Bool
  parent : ParentPc
  timer : TimerPc
  rival : RivalPc
  log : List UseEv
deriving DecidableEq

inductive UseTask where
  | parentT
  | timerT
  | rivalT
deriving DecidableEq

/-- Initial state: one user (the parent) holds the service; its scope body has
just finished, so the parent is entering its `finally` block. -/
def useInit : UseConfig :=
  { wantedGen := 0, wantedSet := true, startedSet := true, users := 1,
    timerStartedCalled := false, parent := .atFinally, timer := .notSpawned,
    rival := .toEnter, log := [] }

/-- Run the chosen task up to its next checkpoint. -/
def useStep (c : UseConfig) : UseTask → UseConfig
  | .parentT =>
    match c.parent with
    | .atFinally =>
      -- lines 148-150 and, when the count hits zero, the `nursery.start`
      -- call of line 156 (spawn the timer, then suspend)
      if c.users - 1 = 0 then
        { c with users := c.users - 1, parent := .awaitingStart,
                 timer := .spawned, log := c.log ++ [.decrUsers] }
      else
        { c with users := c.users - 1, parent := .returned,
                 log := c.log ++ [.decrUsers, .parentReturned] }
    | .awaitingStart =>
      -- blocked in `nursery.start` until the timer's `task_status.started()`
      if c.timerStartedCalled then
        { c with parent := .returned, log := c.log ++ [.parentReturned] }
      else c
    | .returned => c
  | .timerT =>
    match c.timer with
    | .spawned =>
      -- lines 123-129: log, `task_status.started()`, replace
      -- `_service_wanted` with a fresh unset Event, enter `move_on_after`,
      -- block at `wait()` — one atomic block
      { c with timerStartedCalled := true, wantedGen := c.wantedGen + 1,
               wantedSet := false, timer := .waiting,
               log := c.log ++ [.timerArmed] }
    | _ => c
  | .rivalT =>
    match c.rival with
    | .toEnter =>
      -- lines 141-143: set whatever `_service_wanted` currently is, block at
      -- `_service_started.wait()`
      { c with wantedSet := true, rival := .awaitStarted,
               log := c.log ++ [.rivalSetWanted c.wantedGen] }
    | .awaitStarted =>
      if c.startedSet then
        { c with users := c.users + 1, rival := .active,
                 log := c.log ++ [.rivalIncr] }
      else c
    | .active => c

def useRun (sched : List UseTask) : UseConfig := sched.foldl useStep useInit

/-- Invariant tying the handshake flag, the latch generation and the task
counters together. -/
def UseInv (c : UseConfig) : Prop :=
  (c.parent = .atFinally → c.timer = .notSpawned ∧ c.timerStartedCalled = false
      ∧ c.wantedGen = 0) ∧
  (c.timer = .notSpawned → c.timerStartedCalled = false ∧ c.wantedGen = 0) ∧
  (c.timer = .spawned → c.timerStartedCalled = false ∧ c.wantedGen = 0
      ∧ c.parent = .awaitingStart) ∧
  (c.timerStartedCalled = true → c.wantedGen = 1 ∧ c.timer = .waiting) ∧
  (c.parent = .returned → c.timer = .notSpawned ∨ c.timerStartedCalled = true)

theorem useInv_init : UseInv useInit := by
  refine ⟨?_, ?_, ?_, ?_, ?_⟩ <;> intro h
  · exact ⟨rfl, rfl, rfl⟩
  · exact ⟨rfl, rfl⟩
  · cases h
  · cases h
  · cases h

theorem useInv_step (c : UseConfig) (t : UseTask) (ih : UseInv c) :
    UseInv (useStep c t) := by
  obtain ⟨h1, h2, h3, h4, h5⟩ := ih
  cases t with
  | parentT =>
    cases hp : c.parent with
    | atFinally =>
      obtain ⟨ht, hf, hg⟩ := h1 hp
      simp only [useStep, hp]
      by_cases hu : c.users - 1 = 0
      · rw [if_pos hu]
        refine ⟨?_, ?_, ?_, ?_, ?_⟩ <;> intro h
        · cases h
        · cases h
        · exact ⟨hf, hg, rfl⟩
        · rw [hf] at h; cases h
        · cases h
      · rw [if_neg hu]
        refine ⟨?_, ?_, ?_, ?_, ?_⟩ <;> intro h
        · cases h
        · exact ⟨hf, hg⟩
        · rw [ht] at h; cases h
        · rw [hf] at h; cases h
        · exact Or.inl ht
    | awaitingStart =>
      simp only [useStep, hp]
      by_cases hc : c.timerStartedCalled = true
      · rw [if_pos hc]
        refine ⟨?_, ?_, ?_, ?_, ?_⟩ <;> intro h
        · cases h
        · exact h2 h
        · obtain ⟨hf, -⟩ := h3 h
          rw [hc] at hf; cases hf
        · exact h4 h
        · exact Or.inr hc
      · rw [if_neg hc]
        exact ⟨h1, h2, h3, h4, h5⟩
    | returned =>
      simp only [useStep, hp]
      exact ⟨h1, h2, h3, h4, h5⟩
  | timerT =>
    cases ht2 : c.timer with
    | spawned =>
      obtain ⟨hf, hg, hpar⟩ := h3 ht2
      simp only [useStep, ht2]
      refine ⟨?_, ?_, ?_, ?_, ?_⟩ <;> intro h
      · rw [hpar] at h; cases h
      · cases h
      · cases h
      · exact ⟨by rw [hg], rfl⟩
      · rw [hpar] at h; cases h
    | notSpawned =>
      simp only [useStep, ht2]
      exact ⟨h1, h2, h3, h4, h5⟩
    | waiting =>
      simp only [useStep, ht2]
      exact ⟨h1, h2, h3, h4, h5⟩
  | rivalT =>
    cases hr : c.rival with
    | toEnter =>
      simp only [useStep, hr]
      exact ⟨h1, h2, h3, h4, h5⟩
    | awaitStarted =>
      simp only [useStep, hr]
      by_cases hs : c.startedSet = true
      · rw [if_pos hs]
        exact ⟨h1, h2, h3, h4, h5⟩
      · rw [if_neg hs]
        exact ⟨h1, h2, h3, h4, h5⟩
    | active =>
      simp only [useStep, hr]
      exact ⟨h1, h2, h3, h4, h5⟩

theorem useInv_run (sched : List UseTask) : UseInv (useRun sched) := by
  suffices h : ∀ c, UseInv c → UseInv (sched.foldl useStep c) from h useInit useInv_init
  induction sched with
  | nil => intro c hc; exact hc
  | cons t rest ih => intro c hc; exact ih _ (useInv_step c t hc)

/-- C1 counterexample schedule: the parent decrements `users` to zero and
suspends in `nursery.start`; the scheduler then runs the rival — which sets
the OLD `wanted` latch (generation 0) — before the freshly spawned timer task
gets its first step and replaces the latch. -/
def c1Sched : List UseTask := [.parentT, .rivalT, .timerT, .parentT]

/-- C1 counterexample: on schedule `c1Sched` the event log shows the rival
task running (and setting the generation-0 latch) strictly between the
decrement of `users` and the timer's replacement of `wanted` — refuting "no
other task can run between the decrement of users and the replacement of
wanted".  `nursery.start` (line 156) suspends the parent and merely
schedules the timer task; any already-runnable task may be scheduled first. -/
theorem C1_counterexample :
    (useRun c1Sched).log =
      [.decrUsers, .rivalSetWanted 0, .timerArmed, .parentReturned] := by decide

/-- C1 (amended): on the reference-count-to-zero exit of `use()` the timer is
armed synchronously: whenever `use()` has returned after spawning the timer
(`timer ≠ notSpawned`), the timer's `task_status.started()` handshake has
completed and — because lines 124-125 run in one atomic block — `wanted` has
already been replaced with the fresh unset latch (generation 1).  Other
ready tasks may however be scheduled between the decrement and the
replacement (see `C1_counterexample`). -/
theorem C1_wanted_replaced_before_return (sched : List UseTask)
    (hret : (useRun sched).parent = ParentPc.returned)
    (harm : (useRun sched).timer ≠ TimerPc.notSpawned) :
    (useRun sched).timerStartedCalled = true ∧ (useRun sched).wantedGen = 1 := by
  obtain ⟨-, -, -, h4, h5⟩ := useInv_run sched
  rcases h5 hret with h | h
  · exact absurd h harm
  · exact ⟨h, (h4 h).1⟩

theorem C1_wanted_replaced_before_return_witness :
    (useRun c1Sched).timerStartedCalled = true ∧ (useRun c1Sched).wantedGen = 1 :=
  C1_wanted_replaced_before_return c1Sched (by decide) (by decide)

/-! ## Reference counting across concurrent `use()` scopes
(`service.py`, `Service.use` lines 139-156)

Any number of `use()` scopes run concurrently.  Each one:

* entry block (lines 141-143): log, `_service_wanted.set()`, block at
  `await self._service_started.wait()`;
* on wake-up (line 144): `self._users += 1`, then the body runs (`yield`);
* exit (lines 147-150): whatever way the body ends — normal exit, an
  exception, or cancellation — the `finally` block runs `self._users -= 1`
  exactly once, and when the count reaches zero blocks in
  `nursery.start(self._shutdown_timer)` (line 156);
* a task cancelled while still blocked at `_service_started.wait()` never
  reaches the increment: the `asynccontextmanager` raises out of `__aenter__`
  and the `try/finally` around the yield is never entered, so no decrement
  happens either (`cancelWaiter`).

The environment (`setStarted` / `clearStarted`) models the run loop setting
`_service_started` (line 101) and replacing it (line 115) at arbitrary
moments.  Only `use()` scopes ever touch `_users`. -/

inductive UPc where
  | entry
  | waitStarted
  | active
  | armTimer
  | finished
deriving DecidableEq

structure CntConfig where
  users : Int
  started : Bool
  wanted : Bool
  tasks : List UPc
deriving DecidableEq

inductive CntAct where
  | setStarted
  | clearStarted
  | taskStep (i : Nat)
  | cancelWaiter (i : Nat)
deriving DecidableEq

def cntStep (c : CntConfig) : CntAct → CntConfig
  | .setStarted => { c with started := true }
  | .clearStarted => { c with started := false }
  | .cancelWaiter i =>
    match c.tasks.get? i with
    | some .entry => { c with tasks := c.tasks.set i .finished }
    | some .waitStarted => { c with tasks := c.tasks.set i .finished }
    | _ => c
  | .taskStep i =>
    match c.tasks.get? i with
    | some .entry =>
      { c with wanted := true, tasks := c.tasks.set i .waitStarted }
    | some .waitStarted =>
      if c.started then
        { c with users := c.users + 1, tasks := c.tasks.set i .active }
      else c
    | some .active =>
      -- the body is over; the finally block decrements and tests the count
      if c.users - 1 = 0 then
        { c with users := c.users - 1, tasks := c.tasks.set i .armTimer }
      else
        { c with users := c.users - 1, tasks := c.tasks.set i .finished }
    | some .armTimer =>
      -- the spawned shutdown timer replaces `_service_wanted` and completes
      -- the handshake; the scope returns.  `_users` is not touched.
      { c with wanted := false, tasks := c.tasks.set i .finished }
    | _ => c

def cntInit (n : Nat) : CntConfig :=
  { users := 0, started := false, wanted := false,
    tasks := List.replicate n .entry }

def cntRun (n : Nat) (acts : List CntAct) : CntConfig :=
  acts.foldl cntStep (cntInit n)

inductive CntReach (n : Nat) : CntConfig → Prop where
  | init : CntReach n (cntInit n)
  | step (c : CntConfig) (a : CntAct) : CntReach n c → CntReach n (cntStep c a)

theorem cntReach_run (n : Nat) (acts : List CntAct) :
    CntReach n (cntRun n acts) := by
  suffices h : ∀ c, CntReach n c → CntReach n (acts.foldl cntStep c) from
    h _ .init
  induction acts with
  | nil => intro c hc; exact hc
  | cons a rest ih => intro c hc; exact ih _ (.step c a hc)

/-- Updating one list cell changes the count of `x` by the difference of the
old and new cell values. -/
theorem count_set_int (l : List UPc) (i : Nat) (a b x : UPc)
    (h : l.get? i = some a) :
    ((l.set i b).count x : Int)
      = (l.count x : Int) + (if b = x then 1 else 0) - (if a = x then 1 else 0) := by
  induction l generalizing i with
  | nil => simp at h
  | cons hd tl ih =>
    cases i with
    | zero =>
      have ha : hd = a := by simpa using h
      subst ha
      simp only [List.set, List.count_cons, beq_iff_eq]
      push_cast
      split_ifs <;> omega
    | succ j =>
      have h2 : tl.get? j = some a := by simpa using h
      have hrec := ih j h2
      simp only [List.set, List.count_cons, beq_iff_eq]
      push_cast
      push_cast at hrec
      split_ifs at hrec ⊢ <;> omega

/-- `_users` always equals the number of scopes that have run their increment
but not yet their decrement. -/
def CntInv (c : CntConfig) : Prop :=
  c.users = (c.tasks.count UPc.active : Int)

theorem cntInv_step (c : CntConfig) (a : CntAct) (ih : CntInv c) :
    CntInv (cntStep c a) := by
  unfold CntInv at *
  cases a with
  | setStarted => exact ih
  | clearStarted => exact ih
  | cancelWaiter i =>
    cases hpc : c.tasks.get? i with
    | none => simp only [cntStep, hpc]; exact ih
    | some pc =>
      cases pc with
      | entry =>
        simp only [cntStep, hpc]
        show c.users = ((c.tasks.set i .finished).count UPc.active : Int)
        rw [count_set_int c.tasks i _ _ _ hpc, ih]
        simp
      | waitStarted =>
        simp only [cntStep, hpc]
        show c.users = ((c.tasks.set i .finished).count UPc.active : Int)
        rw [count_set_int c.tasks i _ _ _ hpc, ih]
        simp
      | active => simp only [cntStep, hpc]; exact ih
      | armTimer => simp only [cntStep, hpc]; exact ih
      | finished => simp only [cntStep, hpc]; exact ih
  | taskStep i =>
    cases hpc : c.tasks.get? i with
    | none => simp only [cntStep, hpc]; exact ih
    | some pc =>
      cases pc with
      | entry =>
        simp only [cntStep, hpc]
        show c.users = ((c.tasks.set i .waitStarted).count UPc.active : Int)
        rw [count_set_int c.tasks i _ _ _ hpc, ih]
        simp
      | waitStarted =>
        simp only [cntStep, hpc]
        by_cases hs : c.started = true
        · rw [if_pos hs]
          show c.users + 1 = ((c.tasks.set i .active).count UPc.active : Int)
          rw [count_set_int c.tasks i _ _ _ hpc, ih]
          simp
        · rw [if_neg hs]; exact ih
      | active =>
        simp only [cntStep, hpc]
        by_cases hu : c.users - 1 = 0
        · rw [if_pos hu]
          show c.users - 1 = ((c.tasks.set i .armTimer).count UPc.active : Int)
          rw [count_set_int c.tasks i _ _ _ hpc, ih]
          simp
        · rw [if_neg hu]
          show c.users - 1 = ((c.tasks.set i .finished).count UPc.active : Int)
          rw [count_set_int c.tasks i _ _ _ hpc, ih]
          simp
      | armTimer =>
        simp only [cntStep, hpc]
        show c.users = ((c.tasks.set i .finished).count UPc.active : Int)
        rw [count_set_int c.tasks i _ _ _ hpc, ih]
        simp
      | finished =>
        simp only [cntStep, hpc]
        exact ih

/-- C9: for every interleaving of any number of concurrent `use()` scopes
(with the run loop setting and clearing `started` arbitrarily, bodies ending
in any order, and waiters possibly cancelled before entry), `_users` equals
the number of scopes currently between their increment (line 144, run once,
after `_service_started.wait()` completed) and their decrement (line 148, run
once in the `finally`, on every exit path) — and is therefore never
negative. -/
theorem C9_users_never_negative (n : Nat) (c : CntConfig) (h : CntReach n c) :
    c.users = (c.tasks.count UPc.active : Int) ∧ 0 ≤ c.users := by
  have hinv : CntInv c := by
    induction h with
    | init => unfold CntInv cntInit; simp [List.count_replicate]
    | step c a hc ih => exact cntInv_step c a ih
  refine ⟨hinv, ?_⟩
  rw [hinv]
  exact_mod_cast Nat.zero_le _

/-- Two overlapping scopes plus one cancelled waiter: both users enter, exit
in reverse order, the count returns to 0 and never dips below. -/
def c9Acts : List CntAct :=
  [.taskStep 0, .setStarted, .taskStep 0, .taskStep 1, .taskStep 1,
   .taskStep 2, .cancelWaiter 2, .taskStep 0, .clearStarted, .taskStep 1,
   .taskStep 1]

theorem C9_users_never_negative_witness :
    (cntRun 3 c9Acts).users = ((cntRun 3 c9Acts).tasks.count UPc.active : Int) ∧
    0 ≤ (cntRun 3 c9Acts).users :=
  C9_users_never_negative 3 (cntRun 3 c9Acts) (cntReach_run 3 c9Acts)

/-! ## Bidirectional copy phase of the Connection Pump
(`tcp.py`, `one_way_proxy` lines 74-87 and `proxy` lines 104-106)

Once the backend connection is open, `proxy` runs two `one_way_proxy` tasks
in one nursery, both sharing `nursery.cancel_scope`, and `proxy` returns as
soon as the nursery block exits (when both tasks are done).  Nothing after
the nursery closes anything: there is no `aclose` (and no
`async with stream`) anywhere in `tcp.py`.

Each `one_way_proxy` loops: `data = await source.receive_some()`; `b""`
(end-of-stream) breaks the loop; otherwise `await sink.send_all(data)`.
`trio.BrokenResourceError` from either call is caught (and printed); both the
break path and the handler fall through to `cancel_scope.cancel()` (line 87).
A pending cancellation of the shared scope is delivered at a task's next
checkpoint as `trio.Cancelled`, which the `except trio.BrokenResourceError`
does not catch, so the task ends there (without reaching line 87 itself).

Copy tasks are at `recv` (blocked at line 81), `sendData n` (blocked at
line 84; a chunk is abstracted to its size), or `done`.  The oracle feeds the
outcome of each blocking call.  `incomingClosed` / `outgoingClosed` record
whether the pump ever closed an endpoint: no transition sets them. -/

inductive CopyPc where
  | recv
  | sendData (n : Nat)
  | done
deriving DecidableEq

inductive RecvRes where
  | chunk (n : Nat)
  | eof
  | brokenPipe
deriving DecidableEq

inductive SendRes where
  | ok
  | brokenPipe
deriving DecidableEq

/-- One checkpoint-to-checkpoint step of `one_way_proxy`.  Returns the new
program counter, whether this block executed `cancel_scope.cancel()`, and the
chunk transmitted, if any. -/
def copyStep (cancelled : Bool) (pc : CopyPc) (r : RecvRes) (s : SendRes) :
    CopyPc × Bool × Option Nat :=
  if cancelled then
    -- trio.Cancelled is raised at the checkpoint and propagates
    (.done, false, none)
  else
    match pc with
    | .recv =>
      match r with
      | .chunk n => (.sendData n, false, none)
      | .eof => (.done, true, none)
      | .brokenPipe => (.done, true, none)
    | .sendData n =>
      match s with
      | .ok => (.recv, false, some n)
      | .brokenPipe => (.done, true, none)
    | .done => (.done, false, none)

structure PumpConfig where
  cancelRequested : Bool
  a : CopyPc
  b : CopyPc
  fwdA : List Nat
  fwdB : List Nat
  incomingClosed : Bool
  outgoingClosed : Bool
  proxyReturned : Bool
deriving DecidableEq

inductive PumpAct where
  | stepA (r : RecvRes) (s : SendRes)
  | stepB (r : RecvRes) (s : SendRes)
  | nurseryExit
deriving DecidableEq

def pumpStep (c : PumpConfig) : PumpAct → PumpConfig
  | .stepA r s =>
    let o := copyStep c.cancelRequested c.a r s
    { c with a := o.1, cancelRequested := c.cancelRequested || o.2.1,
             fwdA := c.fwdA ++ o.2.2.toList }
  | .stepB r s =>
    let o := copyStep c.cancelRequested c.b r s
    { c with b := o.1, cancelRequested := c.cancelRequested || o.2.1,
             fwdB := c.fwdB ++ o.2.2.toList }
  | .nurseryExit =>
    -- the `async with trio.open_nursery()` block of `proxy` exits once both
    -- tasks are done; lines 104-106 are the end of `proxy`: no closes follow
    if c.a = .done ∧ c.b = .done then { c with proxyReturned := true } else c

def pumpInit : PumpConfig :=
  { cancelRequested := false, a := .recv, b := .recv, fwdA := [], fwdB := [],
    incomingClosed := false, outgoingClosed := false, proxyReturned := false }

def pumpRun (acts : List PumpAct) : PumpConfig := acts.foldl pumpStep pumpInit

/-- C7 counterexample: the client-to-backend task sees end-of-stream at once
and cancels the shared scope; the other task is cancelled at its next
checkpoint; the nursery exits and `proxy` returns — with neither endpoint
closed (`incomingClosed = outgoingClosed = false`), refuting "both tasks
finishing causes both endpoints to be closed": `proxy` and its caller never
close either stream. -/
theorem C7_counterexample :
    (pumpRun [.stepA .eof .ok, .stepB (.chunk 5) .ok, .nurseryExit]).proxyReturned
        = true ∧
    (pumpRun [.stepA .eof .ok, .stepB (.chunk 5) .ok, .nurseryExit]).a = CopyPc.done ∧
    (pumpRun [.stepA .eof .ok, .stepB (.chunk 5) .ok, .nurseryExit]).b = CopyPc.done ∧
    (pumpRun [.stepA .eof .ok, .stepB (.chunk 5) .ok, .nurseryExit]).incomingClosed
        = false ∧
    (pumpRun [.stepA .eof .ok, .stepB (.chunk 5) .ok, .nurseryExit]).outgoingClosed
        = false := by decide

/-- C7 (amended): whenever either copy task observes end-of-stream or a
broken-pipe condition, it cancels the shared cancellation scope in the same
atomic block, and once the scope is cancelled each of the two tasks ends at
its very next checkpoint; `proxy` returns only when both tasks are done — but
the pump itself closes neither endpoint on any schedule (closing the client
stream is left to the caller's machinery; the backend stream is never
explicitly closed). -/
theorem C7_teardown_via_shared_cancel_scope :
    (∀ c r s, c.cancelRequested = false → c.a = CopyPc.recv →
        (r = RecvRes.eof ∨ r = RecvRes.brokenPipe) →
        (pumpStep c (.stepA r s)).cancelRequested = true ∧
        (pumpStep c (.stepA r s)).a = CopyPc.done)
  ∧ (∀ c r s, c.cancelRequested = false → c.b = CopyPc.recv →
        (r = RecvRes.eof ∨ r = RecvRes.brokenPipe) →
        (pumpStep c (.stepB r s)).cancelRequested = true ∧
        (pumpStep c (.stepB r s)).b = CopyPc.done)
  ∧ (∀ c r n, c.cancelRequested = false → c.a = CopyPc.sendData n →
        (pumpStep c (.stepA r .brokenPipe)).cancelRequested = true ∧
        (pumpStep c (.stepA r .brokenPipe)).a = CopyPc.done)
  ∧ (∀ c r n, c.cancelRequested = false → c.b = CopyPc.sendData n →
        (pumpStep c (.stepB r .brokenPipe)).cancelRequested = true ∧
        (pumpStep c (.stepB r .brokenPipe)).b = CopyPc.done)
  ∧ (∀ c r s, c.cancelRequested = true →
        (pumpStep c (.stepA r s)).a = CopyPc.done ∧
        (pumpStep c (.stepB r s)).b = CopyPc.done)
  ∧ (∀ acts, (pumpRun acts).incomingClosed = false ∧
        (pumpRun acts).outgoingClosed = false ∧
        ((pumpRun acts).proxyReturned = true →
          (pumpRun acts).a = CopyPc.done ∧ (pumpRun acts).b = CopyPc.done)) := by
  refine ⟨?_, ?_, ?_, ?_, ?_, ?_⟩
  · intro c r s hc ha hr
    rcases hr with hr | hr <;> subst hr <;>
      simp [pumpStep, copyStep, hc, ha]
  · intro c r s hc hb hr
    rcases hr with hr | hr <;> subst hr <;>
      simp [pumpStep, copyStep, hc, hb]
  · intro c r n hc ha
    simp [pumpStep, copyStep, hc, ha]
  · intro c r n hc hb
    simp [pumpStep, copyStep, hc, hb]
  · intro c r s hc
    constructor <;> simp [pumpStep, copyStep, hc]
  · intro acts
    suffices h : ∀ c : PumpConfig, c.incomingClosed = false →
        c.outgoingClosed = false →
        (c.proxyReturned = true → c.a = CopyPc.done ∧ c.b = CopyPc.done) →
        ((acts.foldl pumpStep c).incomingClosed = false ∧
         (acts.foldl pumpStep c).outgoingClosed = false ∧
         ((acts.foldl pumpStep c).proxyReturned = true →
           (acts.foldl pumpStep c).a = CopyPc.done ∧
           (acts.foldl pumpStep c).b = CopyPc.done)) by
      exact h pumpInit rfl rfl (fun hr => by cases hr)
    induction acts with
    | nil => intro c h1 h2 h3; exact ⟨h1, h2, h3⟩
    | cons act rest ih =>
      intro c h1 h2 h3
      refine ih (pumpStep c act) ?_ ?_ ?_
      · cases act with
        | stepA r s => exact h1
        | stepB r s => exact h1
        | nurseryExit =>
          by_cases hd : c.a = CopyPc.done ∧ c.b = CopyPc.done
          · simp only [pumpStep, if_pos hd]; exact h1
          · simp only [pumpStep, if_neg hd]; exact h1
      · cases act with
        | stepA r s => exact h2
        | stepB r s => exact h2
        | nurseryExit =>
          by_cases hd : c.a = CopyPc.done ∧ c.b = CopyPc.done
          · simp only [pumpStep, if_pos hd]; exact h2
          · simp only [pumpStep, if_neg hd]; exact h2
      · cases act with
        | stepA r s =>
          intro hr
          have hr2 : c.proxyReturned = true := hr
          obtain ⟨hda, hdb⟩ := h3 hr2
          constructor
          · show (copyStep c.cancelRequested c.a r s).1 = CopyPc.done
            rw [hda]
            unfold copyStep
            split_ifs <;> rfl
          · exact hdb
        | stepB r s =>
          intro hr
          have hr2 : c.proxyReturned = true := hr
          obtain ⟨hda, hdb⟩ := h3 hr2
          constructor
          · exact hda
          · show (copyStep c.cancelRequested c.b r s).1 = CopyPc.done
            rw [hdb]
            unfold copyStep
            split_ifs <;> rfl
        | nurseryExit =>
          intro hr
          by_cases hd : c.a = CopyPc.done ∧ c.b = CopyPc.done
          · simp only [pumpStep, if_pos hd]
            exact hd
          · simp only [pumpStep, if_neg hd] at hr ⊢
            exact h3 hr

theorem C7_teardown_via_shared_cancel_scope_witness :
    (pumpStep pumpInit (.stepA RecvRes.eof SendRes.ok)).cancelRequested = true ∧
    (pumpStep pumpInit (.stepA RecvRes.eof SendRes.ok)).a = CopyPc.done :=
  C7_teardown_via_shared_cancel_scope.1 pumpInit RecvRes.eof SendRes.ok
    rfl rfl (Or.inl rfl)

/-! ## Port allocation and the child environment
(`service.py`, `get_free_port` lines 173-178, `_run_loop` lines 74-98)

One `get_port` task per descriptor port runs in the inner nursery.  Each task
has two atomic blocks:

* `bind`: `await s.bind(("::1", 0, 0, 0))` — the OS assigns some TCP port
  that is currently free, in [1, 65535];
* `complete`: after the bind checkpoint, `getsockname`, `s.close()`, the
  return from `get_free_port` and the assignment
  `self._port_map[port] = ...` all run without an intervening checkpoint.

Because `s.close()` frees the probe port before the other tasks are done,
the OS may hand the very same port to a later bind of the same round: the
model's `osBound` set tracks only the currently-bound probe sockets, which is
all `get_free_port` reserves.

The child environment (lines 83-89) is the Python dict
`{**self.env, **{f"PORT_{port}": str(alloc_port) for ...}}`, built here by
dict-inserting the `PORT_` entries into the base environment.  Keys and
values are the actual strings Python produces: the key for port `p` is
`"PORT_" ++ toString p` and the value is `toString alloc`.  A base
environment variable whose name literally is `PORT_<p>` for an allocated
port `p` is therefore overwritten by the merge, exactly as in the dict
expression; base variables with any other name are preserved.  Distinct
ports give distinct keys because decimal printing of naturals is injective,
proved below (`toString_nat_injective`). -/

/-- Reference decimal printer, most significant digit first.  Equal to the
fuel-based printer behind `toString : Nat → String` (shown below), and
injective. -/
def myDigits (n : Nat) : List Char :=
  if _h : n < 10 then [Nat.digitChar n]
  else myDigits (n / 10) ++ [Nat.digitChar (n % 10)]
decreasing_by exact Nat.div_lt_self (by omega) (by omega)

theorem myDigits_small (n : Nat) (h : n < 10) :
    myDigits n = [Nat.digitChar n] := by
  rw [myDigits]; exact dif_pos h

theorem myDigits_large (n : Nat) (h : ¬ n < 10) :
    myDigits n = myDigits (n / 10) ++ [Nat.digitChar (n % 10)] := by
  conv_lhs => rw [myDigits]
  rw [dif_neg h]

theorem myDigits_ne_nil (n : Nat) : myDigits n ≠ [] := by
  by_cases h : n < 10
  · rw [myDigits_small n h]; simp
  · rw [myDigits_large n h]; simp

theorem digitChar_inj_lt10 : ∀ a, a < 10 → ∀ b, b < 10 →
    Nat.digitChar a = Nat.digitChar b → a = b := by decide

theorem append_singleton_inj {α : Type} (as bs : List α) (a b : α)
    (h : as ++ [a] = bs ++ [b]) : as = bs ∧ a = b := by
  have h2 := congrArg List.reverse h
  simp only [List.reverse_append, List.reverse_singleton, List.singleton_append,
    List.cons.injEq] at h2
  exact ⟨List.reverse_injective h2.2, h2.1⟩

theorem myDigits_injective : ∀ m n : Nat, myDigits m = myDigits n → m = n := by
  intro m
  induction m using Nat.strong_induction_on with
  | _ m ih =>
    intro n h
    by_cases hm : m < 10 <;> by_cases hn : n < 10
    · rw [myDigits_small m hm, myDigits_small n hn] at h
      have hd : Nat.digitChar m = Nat.digitChar n := by injection h
      exact digitChar_inj_lt10 m hm n hn hd
    · exfalso
      rw [myDigits_small m hm, myDigits_large n hn] at h
      have hlen := congrArg List.length h
      simp only [List.length_singleton, List.length_append] at hlen
      have h0 : (myDigits (n / 10)).length = 0 := by omega
      exact myDigits_ne_nil (n / 10) (List.length_eq_zero.mp h0)
    · exfalso
      rw [myDigits_large m hm, myDigits_small n hn] at h
      have hlen := congrArg List.length h
      simp only [List.length_singleton, List.length_append] at hlen
      have h0 : (myDigits (m / 10)).length = 0 := by omega
      exact myDigits_ne_nil (m / 10) (List.length_eq_zero.mp h0)
    · rw [myDigits_large m hm, myDigits_large n hn] at h
      obtain ⟨hpre, hdig⟩ := append_singleton_inj _ _ _ _ h
      have hdiv : m / 10 = n / 10 :=
        ih (m / 10) (Nat.div_lt_self (by omega) (by omega)) (n / 10) hpre
      have hmod : m % 10 = n % 10 :=
        digitChar_inj_lt10 (m % 10) (Nat.mod_lt m (by omega)) (n % 10)
          (Nat.mod_lt n (by omega)) hdig
      omega

/-- With enough fuel, core's accumulator-based digit printer agrees with the
reference printer. -/
theorem toDigitsCore_eq_myDigits (fuel : Nat) :
    ∀ n ds, n < 10 ^ fuel → 1 ≤ fuel →
      Nat.toDigitsCore 10 fuel n ds = myDigits n ++ ds := by
  induction fuel with
  | zero => intro n ds _ h1; omega
  | succ f ih =>
    intro n ds hlt _
    rw [show Nat.toDigitsCore 10 (f + 1) n ds =
        if n / 10 = 0 then Nat.digitChar (n % 10) :: ds
        else Nat.toDigitsCore 10 f (n / 10) (Nat.digitChar (n % 10) :: ds) by
      simp only [Nat.toDigitsCore]]
    by_cases hz : n / 10 = 0
    · rw [if_pos hz]
      have hn : n < 10 := by omega
      rw [myDigits_small n hn, Nat.mod_eq_of_lt hn]
      rfl
    · rw [if_neg hz]
      have hge : ¬ n < 10 := by omega
      have hf1 : 1 ≤ f := by
        rcases Nat.eq_zero_or_pos f with hf0 | hf0
        · subst hf0
          norm_num at hlt
          omega
        · exact hf0
      have hlt2 : n / 10 < 10 ^ f := by
        rw [Nat.div_lt_iff_lt_mul (by omega)]
        calc n < 10 ^ (f + 1) := hlt
          _ = 10 ^ f * 10 := pow_succ 10 f
      rw [ih (n / 10) (Nat.digitChar (n % 10) :: ds) hlt2 hf1]
      rw [myDigits_large n hge, List.append_assoc]
      rfl

theorem toDigits_eq_myDigits (n : Nat) : Nat.toDigits 10 n = myDigits n := by
  have h1 : n < 10 ^ (n + 1) := by
    calc n < 2 ^ n := Nat.lt_two_pow n
      _ ≤ 10 ^ n := Nat.pow_le_pow_left (by omega) n
      _ ≤ 10 ^ (n + 1) := Nat.pow_le_pow_right (by omega) (by omega)
  have h2 := toDigitsCore_eq_myDigits (n + 1) n [] h1 (by omega)
  calc Nat.toDigits 10 n = Nat.toDigitsCore 10 (n + 1) n [] := rfl
    _ = myDigits n ++ [] := h2
    _ = myDigits n := List.append_nil _

/-- `str()` on naturals (decimal printing) is injective. -/
theorem toString_nat_injective (m n : Nat) (h : toString m = toString n) :
    m = n := by
  have hdata : Nat.toDigits 10 m = Nat.toDigits 10 n := congrArg String.data h
  rw [toDigits_eq_myDigits, toDigits_eq_myDigits] at hdata
  exact myDigits_injective m n hdata

/-- The f-string key `f"PORT_{port}"` of line 86. -/
def portKey (p : Nat) : String := "PORT_" ++ toString p

theorem portKey_injective (p q : Nat) (h : portKey p = portKey q) : p = q := by
  have hd := congrArg String.data h
  simp only [portKey, String.data_append] at hd
  have hs : (toString p).data = (toString q).data := List.append_cancel_left hd
  exact toString_nat_injective p q (congrArg String.mk hs)

/-- Python dict item assignment for the environment dict (string keys). -/
def envInsert : List (String × String) → String → String → List (String × String)
  | [], k, v => [(k, v)]
  | e :: rest, k, v =>
    if e.1 = k then (k, v) :: rest else e :: envInsert rest k v

def envLookup : List (String × String) → String → Option String
  | [], _ => none
  | e :: rest, k => if e.1 = k then some e.2 else envLookup rest k

/-- `{**self.env, **{f"PORT_{port}": str(alloc_port) for port, alloc_port in
self._port_map.items()}}` (lines 83-89): the `PORT_` entries are merged into
the base environment, overriding any base entry with the same string key. -/
def composeEnv (base : List (String × String)) (pm : List (Nat × Nat)) :
    List (String × String) :=
  pm.foldl (fun env kv => envInsert env (portKey kv.1) (toString kv.2)) base

theorem envLookup_envInsert_self (env : List (String × String)) (k : String)
    (v : String) : envLookup (envInsert env k v) k = some v := by
  induction env with
  | nil => simp [envInsert, envLookup]
  | cons e rest ih =>
    by_cases hk : e.1 = k
    · simp [envInsert, hk, envLookup]
    · simp [envInsert, hk, envLookup, ih]

theorem envLookup_envInsert_of_ne (env : List (String × String)) (k k2 : String)
    (v : String) (h : k2 ≠ k) :
    envLookup (envInsert env k v) k2 = envLookup env k2 := by
  induction env with
  | nil =>
    simp only [envInsert, envLookup]
    rw [if_neg (fun h2 => h h2.symm)]
  | cons e rest ih =>
    by_cases hk : e.1 = k
    · simp only [envInsert, hk, if_true, envLookup]
      rw [if_neg (fun h2 => h h2.symm), if_neg (fun h2 => h h2.symm)]
    · simp only [envInsert, hk, if_false, envLookup, ih]

/-- Merging the `PORT_` entries does not touch a key that is not the
`PORT_<q>` key of any mapped port `q`. -/
theorem envLookup_composeEnv_of_no_key (pm : List (Nat × Nat)) (s : String) :
    ∀ base : List (String × String), (∀ q ∈ pmKeys pm, portKey q ≠ s) →
      envLookup (composeEnv base pm) s = envLookup base s := by
  induction pm with
  | nil => intro base _; rfl
  | cons e rest ih =>
    intro base hkeys
    have hrest : ∀ q ∈ pmKeys rest, portKey q ≠ s := fun q hq =>
      hkeys q (by
        simp only [pmKeys, List.map_cons, List.mem_cons]
        right
        exact hq)
    have hhead : portKey e.1 ≠ s := hkeys e.1 (by simp [pmKeys])
    show envLookup (composeEnv (envInsert base (portKey e.1) (toString e.2)) rest) s
        = envLookup base s
    rw [ih _ hrest]
    exact envLookup_envInsert_of_ne base (portKey e.1) s (toString e.2)
      (Ne.symm hhead)

theorem envLookup_composeEnv_port (pm : List (Nat × Nat)) (p a : Nat) :
    ∀ base : List (String × String), (pmKeys pm).Nodup →
      pmLookup pm p = some a →
      envLookup (composeEnv base pm) (portKey p) = some (toString a) := by
  induction pm with
  | nil => intro base _ h; cases h
  | cons e rest ih =>
    intro base hnd h
    simp only [pmKeys, List.map_cons, List.nodup_cons] at hnd
    by_cases hk : e.1 = p
    · have ha : e.2 = a := by
        simp only [pmLookup, hk, if_true] at h
        exact Option.some.inj h
      subst ha
      have hnokey : ∀ q ∈ pmKeys rest, portKey q ≠ portKey p := by
        intro q hq hcon
        have hqp : q = p := portKey_injective q p hcon
        subst hqp
        apply hnd.1
        rw [hk]
        exact hq
      show envLookup
          (composeEnv (envInsert base (portKey e.1) (toString e.2)) rest)
          (portKey p) = some (toString e.2)
      rw [envLookup_composeEnv_of_no_key rest (portKey p) _ hnokey, hk]
      exact envLookup_envInsert_self base _ _
    · simp only [pmLookup, hk, if_false] at h
      show envLookup
          (composeEnv (envInsert base (portKey e.1) (toString e.2)) rest)
          (portKey p) = some (toString a)
      exact ih _ hnd.2 h

/-! ### The allocation round -/

inductive APc where
  | toBind
  | toClose (alloc : Nat)
  | finished
deriving DecidableEq

structure AllocConfig where
  osBound : List Nat
  tasks : List (Nat × APc)
  portMap : List (Nat × Nat)
deriving DecidableEq

inductive AllocAct where
  | bindStep (i : Nat) (p : Nat)
  | completeStep (i : Nat)
deriving DecidableEq

def allocStep (c : AllocConfig) : AllocAct → AllocConfig
  | .bindStep i p =>
    match c.tasks.get? i with
    | some (port, .toBind) =>
      -- the OS hands out a port that is free right now
      if 1 ≤ p ∧ p ≤ 65535 ∧ p ∉ c.osBound then
        { c with osBound := p :: c.osBound,
                 tasks := c.tasks.set i (port, .toClose p) }
      else c
    | _ => c
  | .completeStep i =>
    match c.tasks.get? i with
    | some (port, .toClose p) =>
      { c with osBound := c.osBound.erase p,
               portMap := pmInsert c.portMap port p,
               tasks := c.tasks.set i (port, .finished) }
    | _ => c

def allocInit (ports : List Nat) : AllocConfig :=
  { osBound := [], tasks := ports.map (fun p => (p, .toBind)), portMap := [] }

def allocRun (ports : List Nat) (acts : List AllocAct) : AllocConfig :=
  acts.foldl allocStep (allocInit ports)

inductive AllocReach (ports : List Nat) : AllocConfig → Prop where
  | init : AllocReach ports (allocInit ports)
  | step (c : AllocConfig) (a : AllocAct) :
      AllocReach ports c → AllocReach ports (allocStep c a)

theorem allocReach_run (ports : List Nat) (acts : List AllocAct) :
    AllocReach ports (allocRun ports acts) := by
  suffices h : ∀ c, AllocReach ports c → AllocReach ports (acts.foldl allocStep c)
    from h _ .init
  induction acts with
  | nil => intro c hc; exact hc
  | cons a rest ih => intro c hc; exact ih _ (.step c a hc)

/-- Replacing the second component of one cell leaves the first components
unchanged. -/
theorem map_fst_set (l : List (Nat × APc)) (i : Nat) (port : Nat) (x y : APc)
    (h : l.get? i = some (port, x)) :
    (l.set i (port, y)).map Prod.fst = l.map Prod.fst := by
  induction l generalizing i with
  | nil => simp at h
  | cons hd tl ih =>
    cases i with
    | zero =>
      have : hd = (port, x) := by simpa using h
      subst this
      simp [List.set]
    | succ j =>
      have h2 : tl.get? j = some (port, x) := by simpa using h
      simp [List.set, ih j h2]

def AllocInv (ports : List Nat) (c : AllocConfig) : Prop :=
  c.tasks.map Prod.fst = ports ∧
  (∀ e ∈ c.portMap, 1 ≤ e.2 ∧ e.2 ≤ 65535) ∧
  (∀ t ∈ c.tasks, ∀ q, t.2 = APc.toClose q → 1 ≤ q ∧ q ≤ 65535) ∧
  (∀ q ∈ pmKeys c.portMap, q ∈ ports) ∧
  (∀ port, (port, APc.finished) ∈ c.tasks → port ∈ pmKeys c.portMap) ∧
  (pmKeys c.portMap).Nodup

theorem allocInv_init (ports : List Nat) : AllocInv ports (allocInit ports) := by
  refine ⟨by simp only [allocInit, List.map_map]; exact List.map_id ports, ?_, ?_, ?_, ?_, ?_⟩
  · intro e he; simp [allocInit] at he
  · intro t ht q hq
    simp only [allocInit, List.mem_map] at ht
    obtain ⟨p, -, hp⟩ := ht
    rw [← hp] at hq
    cases hq
  · intro q hq; simp [allocInit, pmKeys] at hq
  · intro port hport
    simp only [allocInit, List.mem_map] at hport
    obtain ⟨p, -, hp⟩ := hport
    cases hp
  · simp [allocInit, pmKeys]

theorem allocInv_step (ports : List Nat) (c : AllocConfig) (a : AllocAct)
    (ih : AllocInv ports c) : AllocInv ports (allocStep c a) := by
  obtain ⟨h1, h2, h3, h4, h5, h6⟩ := ih
  cases a with
  | bindStep i p =>
    cases hgi : c.tasks.get? i with
    | none => simp only [allocStep, hgi]; exact ⟨h1, h2, h3, h4, h5, h6⟩
    | some t =>
      obtain ⟨port, pc⟩ := t
      cases pc with
      | toBind =>
        simp only [allocStep, hgi]
        by_cases hp : 1 ≤ p ∧ p ≤ 65535 ∧ p ∉ c.osBound
        · rw [if_pos hp]
          refine ⟨?_, h2, ?_, h4, ?_, h6⟩
          · show (c.tasks.set i (port, .toClose p)).map Prod.fst = ports
            rw [map_fst_set c.tasks i port _ _ hgi]
            exact h1
          · intro t ht q hq
            rcases List.mem_or_eq_of_mem_set ht with hmem | heq
            · exact h3 t hmem q hq
            · rw [heq] at hq
              have : p = q := by injection hq
              subst this
              exact ⟨hp.1, hp.2.1⟩
          · intro port2 hport2
            rcases List.mem_or_eq_of_mem_set hport2 with hmem | heq
            · exact h5 port2 hmem
            · exfalso
              injection heq with he1 he2
              cases he2
        · rw [if_neg hp]; exact ⟨h1, h2, h3, h4, h5, h6⟩
      | toClose q =>
        simp only [allocStep, hgi]
        exact ⟨h1, h2, h3, h4, h5, h6⟩
      | finished =>
        simp only [allocStep, hgi]
        exact ⟨h1, h2, h3, h4, h5, h6⟩
  | completeStep i =>
    cases hgi : c.tasks.get? i with
    | none => simp only [allocStep, hgi]; exact ⟨h1, h2, h3, h4, h5, h6⟩
    | some t =>
      obtain ⟨port, pc⟩ := t
      cases pc with
      | toBind =>
        simp only [allocStep, hgi]
        exact ⟨h1, h2, h3, h4, h5, h6⟩
      | toClose q =>
        have hq : 1 ≤ q ∧ q ≤ 65535 :=
          h3 (port, .toClose q) (List.get?_mem hgi) q rfl
        have hport : port ∈ ports := by
          rw [← h1]
          exact List.mem_map_of_mem Prod.fst (List.get?_mem hgi)
        simp only [allocStep, hgi]
        refine ⟨?_, ?_, ?_, ?_, ?_, nodup_pmKeys_pmInsert _ _ _ h6⟩
        · show (c.tasks.set i (port, .finished)).map Prod.fst = ports
          rw [map_fst_set c.tasks i port _ _ hgi]
          exact h1
        · intro e he
          rcases mem_pmInsert c.portMap port q e he with hmem | heq
          · exact h2 e hmem
          · rw [heq]; exact hq
        · intro t ht q2 hq2
          rcases List.mem_or_eq_of_mem_set ht with hmem | heq
          · exact h3 t hmem q2 hq2
          · rw [heq] at hq2; cases hq2
        · intro q2 hq2
          rcases (mem_pmKeys_pmInsert c.portMap port q q2).mp hq2 with heq | hmem
          · rw [heq]; exact hport
          · exact h4 q2 hmem
        · intro port2 hport2
          rw [mem_pmKeys_pmInsert]
          rcases List.mem_or_eq_of_mem_set hport2 with hmem | heq
          · exact Or.inr (h5 port2 hmem)
          · injection heq with he1 he2
            exact Or.inl he1
      | finished =>
        simp only [allocStep, hgi]
        exact ⟨h1, h2, h3, h4, h5, h6⟩

theorem allocReach_inv (ports : List Nat) (c : AllocConfig)
    (h : AllocReach ports c) : AllocInv ports c := by
  induction h with
  | init => exact allocInv_init ports
  | step c a hc ih => exact allocInv_step ports c a ih

/-- C8 counterexample: with descriptor ports `[80, 443]`, the first
`get_port` task binds, reads and closes its probe socket (getting 5000)
before the second task binds; the closed port is free again, so the OS may —
and here does — assign 5000 to the second task as well.  Both `PORT_` values
of this single launch are then the same string `"5000"`: "no two ports of the
same launch receive the same value" is false on this code, because
`get_free_port` closes the probe socket before returning (line 177). -/
theorem C8_counterexample :
    (allocRun [80, 443] [.bindStep 0 5000, .completeStep 0, .bindStep 1 5000,
        .completeStep 1]).portMap = [(80, 5000), (443, 5000)] ∧
    envLookup (composeEnv [] (allocRun [80, 443] [.bindStep 0 5000,
        .completeStep 0, .bindStep 1 5000, .completeStep 1]).portMap)
        "PORT_80" = some "5000" ∧
    envLookup (composeEnv [] (allocRun [80, 443] [.bindStep 0 5000,
        .completeStep 0, .bindStep 1 5000, .completeStep 1]).portMap)
        "PORT_443" = some "5000" := by decide

/-- C8 (amended): on every launch the child environment is the base
environment extended with one `PORT_<p>` variable per allocated mapping
`(p, a)` of the port map, holding exactly the decimal string of the backend
port `a`; every allocated backend port lies in [1, 65535] (so each value is a
valid decimal integer in range); once the allocation round has finished, the
port map has exactly one entry per descriptor port; and base-environment
variables whose name is not the `PORT_<p>` key of an allocated port are
preserved (one literally named `PORT_<p>` is overwritten by the dict merge —
that case falls under the lookup conjunct, which holds for any base).
Distinctness of the values is NOT guaranteed (see `C8_counterexample`): it
would require the probe sockets to stay bound until the whole round is over,
but each is closed early. -/
theorem C8_child_environment (ports : List Nat) (base : List (String × String))
    (c : AllocConfig) (h : AllocReach ports c) :
    (∀ e ∈ c.portMap, 1 ≤ e.2 ∧ e.2 ≤ 65535)
  ∧ ((∀ t ∈ c.tasks, t.2 = APc.finished) →
       ∀ p, p ∈ pmKeys c.portMap ↔ p ∈ ports)
  ∧ (pmKeys c.portMap).Nodup
  ∧ (∀ p a, pmLookup c.portMap p = some a →
       envLookup (composeEnv base c.portMap) (portKey p)
         = some (toString a))
  ∧ (∀ s, (∀ q ∈ pmKeys c.portMap, portKey q ≠ s) →
       envLookup (composeEnv base c.portMap) s = envLookup base s) := by
  obtain ⟨h1, h2, h3, h4, h5, h6⟩ := allocReach_inv ports c h
  refine ⟨h2, ?_, h6, ?_, ?_⟩
  · intro hfin p
    constructor
    · exact h4 p
    · intro hp
      rw [← h1] at hp
      obtain ⟨t, ht, hfst⟩ := List.mem_map.mp hp
      have : t = (p, APc.finished) := by
        obtain ⟨t1, t2⟩ := t
        have h2fin := hfin (t1, t2) ht
        simp only at h2fin hfst
        rw [h2fin, hfst]
      rw [this] at ht
      exact h5 p ht
  · intro p a hpa
    exact envLookup_composeEnv_port c.portMap p a base h6 hpa
  · intro s hs
    exact envLookup_composeEnv_of_no_key c.portMap s base hs

/-- A clean round on ports `[80, 443]`: distinct backend ports 5000 and 5001,
all tasks finished; the base environment carries an unrelated variable. -/
def cleanAllocActs : List AllocAct :=
  [.bindStep 0 5000, .bindStep 1 5001, .completeStep 0, .completeStep 1]

theorem C8_child_environment_witness :
    envLookup (composeEnv [("HOME", "/root")]
        (allocRun [80, 443] cleanAllocActs).portMap) (portKey 443)
      = some "5001" ∧
    envLookup (composeEnv [("HOME", "/root")]
        (allocRun [80, 443] cleanAllocActs).portMap) "HOME"
      = some "/root" ∧
    80 ∈ pmKeys (allocRun [80, 443] cleanAllocActs).portMap := by
  have h := C8_child_environment [80, 443] [("HOME", "/root")]
    (allocRun [80, 443] cleanAllocActs) (allocReach_run [80, 443] cleanAllocActs)
  refine ⟨h.2.2.2.1 443 5001 (by decide), ?_, (h.2.1 (by decide) 80).mpr (by decide)⟩
  rw [h.2.2.2.2 "HOME" (by decide)]
  decide

end Wodonga
